import Mathlib

/-!
Shallow embedding of the copy-on-write trie of
`src/bustub/src/primer/trie.cpp` (`Trie::Get`, `Trie::Put`,
`Trie::Remove`), together with theorems settling the specification's
claims about it.

Keys (`std::string_view`) are modelled as lists of bytes (`List Nat`).
The children map of a node (`std::map<char, std::shared_ptr<const
TrieNode>>`) is modelled as an association list sorted by key, whose
entries carry `Option Node`: a `none` entry models a map entry holding a
null `shared_ptr` (the code's `children_[key[i]] = child_node` can store
a null pointer).  Stored values are modelled by a small closed universe
`Val` with a type tag `Ty`; the runtime `dynamic_cast` type check of
`Get<T>` is modelled as a tag comparison.  A null-pointer dereference
(undefined behaviour in the source) is modelled by the explicit outcome
`GetResult.crash`.
-/

/-- Type tags for the value universe: the template parameter `T` of
`Trie::Get<T>` / `Trie::Put<T>` (the file instantiates `uint32_t`,
`uint64_t` and `std::string`). -/
inductive Ty : Type where
  | u32 : Ty
  | u64 : Ty
  | str : Ty
deriving DecidableEq

/-- Stored values: a payload together with its runtime type. -/
inductive Val : Type where
  | u32 : Nat → Val
  | u64 : Nat → Val
  | str : String → Val
deriving DecidableEq

/-- The runtime type of a stored value (what `dynamic_cast` inspects). -/
def Val.ty : Val → Ty
  | .u32 _ => .u32
  | .u64 _ => .u64
  | .str _ => .str

/-- Lookup in the ordered children map: `children_.find(c)`.  Returns
`none` when the key is absent (`find == end`), and `some a` when an
entry is present — where `a` itself may be a null child reference. -/
def mapFind {α : Type} : List (Nat × α) → Nat → Option α
  | [], _ => none
  | (k, a) :: rest, c => if c = k then some a else mapFind rest c

/-- Insert-or-assign in the ordered children map: `children_[c] = a`
(`std::map::operator[]` followed by assignment), keeping entries sorted
by key as `std::map` does. -/
def mapInsert {α : Type} : List (Nat × α) → Nat → α → List (Nat × α)
  | [], c, a => [(c, a)]
  | (k, b) :: rest, c, a =>
    if c = k then (c, a) :: rest
    else if c < k then (c, a) :: (k, b) :: rest
    else (k, b) :: mapInsert rest c a

/-- Modelled from the spec: the node family of `trie.h` (the header is
not among the repository's staged files).  Per §3 and §4.1 of the spec a
node is a children mapping from one byte to a child reference, plus an
optional value; a `TrieNodeWithValue` is exactly a node whose value is
present (`is_value_node_` is `value.isSome`), and the `Clone` primitive
is a shallow copy keeping the same children mapping and the same value
reference. -/
inductive Node : Type where
  | mk : List (Nat × Option Node) → Option Val → Node

/-- The children mapping of a node (`children_`). -/
def Node.children : Node → List (Nat × Option Node)
  | .mk cs _ => cs

/-- The stored value of a node, if any (`value_` when `is_value_node_`). -/
def Node.value : Node → Option Val
  | .mk _ v => v

/-- The child reference reached from `n` along byte `c`, as the walk
loops of the source compute it: `children_.find(c) == end ? nullptr :
children_.at(c)`.  Both a missing entry and an entry holding a null
reference yield `none`. -/
def childOf (n : Node) (c : Nat) : Option Node :=
  match mapFind n.children c with
  | some (some m) => some m
  | _ => none

/-- Possible outcomes of `Trie::Get<T>`: a value of the requested type,
a null return ("not found"), or a null-pointer dereference (the source
has no null check before `node->children_`). -/
inductive GetResult : Type where
  | found : Val → GetResult
  | notFound : GetResult
  | crash : GetResult
deriving DecidableEq

/-- The body of `Trie::Get<T>` (trie.cpp lines 18-29) on a root
reference: walk the key one byte at a time; return null when an edge is
missing; after consuming the key, `dynamic_cast` the node to
`TrieNodeWithValue<T>` (null node or branch node or wrong type tag give
"not found").  When the current node reference is null and key bytes
remain, the source evaluates `node->children_` — a null dereference,
modelled as `crash`. -/
def getN : Option Node → Ty → List Nat → GetResult
  | none, _, _ :: _ => .crash
  | some n, t, c :: cs =>
    match mapFind n.children c with
    | none => .notFound
    | some child => getN child t cs
  | none, _, [] => .notFound
  | some n, t, [] =>
    match n.value with
    | none => .notFound
    | some v => if v.ty = t then .found v else .notFound

/-- The body of `Trie::Put` (trie.cpp lines 37-71) on a root reference,
written as the recursion the three loops of the source implement: walk
the key while nodes exist (a missing edge or a null child entry ends the
walk); at the end build a value node keeping the reached node's children
(empty when the walk ended on nothing); synthesize a single-child branch
node for every unconsumed suffix byte; and clone every recorded ancestor
(shallow `Clone`, keeping its value), overwriting its child entry for
the key byte. -/
def putAux : Option Node → List Nat → Val → Node
  | none, [], v => Node.mk [] (some v)
  | some n, [], v => Node.mk n.children (some v)
  | none, c :: cs, v => Node.mk [(c, some (putAux none cs v))] none
  | some n, c :: cs, v =>
    Node.mk (mapInsert n.children c (some (putAux (childOf n c) cs v))) n.value

/-- The node reference reached after consuming the whole key, as the
walk loop of `Trie::Remove` (and `Trie::Put`) leaves `cur_node`: `none`
exactly when the walk stopped on a missing edge, on a null child entry,
or started from a null root. -/
def walkEnd : Option Node → List Nat → Option Node
  | node, [] => node
  | none, _ :: _ => none
  | some n, c :: cs => walkEnd (childOf n c) cs

/-- The replacement for the value node at the key's end in
`Trie::Remove` (trie.cpp lines 94-95): null when it has no children,
otherwise a plain branch node carrying the same children. -/
def endReplace (n : Node) : Option Node :=
  match n.children with
  | [] => none
  | _ :: _ => some (Node.mk n.children none)

/-- The ancestor-cloning loop of `Trie::Remove` (trie.cpp lines 98-103)
for a non-empty key `c :: cs`, starting from the topmost recorded
ancestor `n`: clone `n` (keeping its value) and overwrite its child
entry for `c` with the replacement built below — the end replacement at
the last byte, a recursively rebuilt clone otherwise.  No pruning is
performed on the clones. -/
def removeFound : Node → Nat → List Nat → Node
  | n, c, [] =>
    Node.mk
      (mapInsert n.children c
        (match childOf n c with
         | some m => endReplace m
         | none => none))
      n.value
  | n, c, c2 :: cs =>
    Node.mk
      (mapInsert n.children c
        (match childOf n c with
         | some m => some (removeFound m c2 cs)
         | none => none))
      n.value

/-- A trie version: a reference to a root node, or nothing (the empty
trie).  `Trie() = default` gives a null root. -/
structure Trie : Type where
  root : Option Node

/-- The empty trie (default-constructed `Trie`). -/
def Trie.empty : Trie := ⟨none⟩

/-- `Trie::Get<T>(key)` (trie.cpp lines 10-30). -/
def Trie.get (t : Trie) (ty : Ty) (key : List Nat) : GetResult :=
  getN t.root ty key

/-- `Trie::Put(key, value)` (trie.cpp lines 32-72): always returns a
trie with a non-null root. -/
def Trie.put (t : Trie) (key : List Nat) (v : Val) : Trie :=
  ⟨some (putAux t.root key v)⟩

/-- `Trie::Remove(key)` (trie.cpp lines 74-105): a no-op returning
`*this` when the walk does not end on a value node (line 89); otherwise
the cloning loop rebuilds the path.  When the key is empty the ancestor
stack is empty, the loop body never runs, and the returned trie is
`Trie(cur_node)` with `cur_node` still the untouched node found by the
walk — the original root. -/
def Trie.remove (t : Trie) (key : List Nat) : Trie :=
  match walkEnd t.root key with
  | none => t
  | some n =>
    if n.value.isSome then
      match t.root, key with
      | some r, c :: cs => ⟨some (removeFound r c cs)⟩
      | _, _ => t
    else t

/-- The found-ness test of `Trie::Remove` line 89, as a predicate on a
version: the walk consumes the whole key and ends on a value node. -/
def Trie.present (t : Trie) (key : List Nat) : Bool :=
  match walkEnd t.root key with
  | some n => n.value.isSome
  | none => false

/-- All bytes of a non-empty key but the last (the path to the parent of
the key's terminal node). -/
def initBytes (c : Nat) : List Nat → List Nat
  | [] => []
  | c2 :: cs => c :: initBytes c2 cs

/-- The last byte of a non-empty key. -/
def lastByte (c : Nat) : List Nat → Nat
  | [] => c
  | c2 :: cs => lastByte c2 cs

/-! ## Basic lemmas about the embedded operations -/

theorem walkEnd_none (cs : List Nat) : walkEnd (none : Option Node) cs = none := by
  cases cs <;> rfl

theorem children_mk (l : List (Nat × Option Node)) (v : Option Val) :
    (Node.mk l v).children = l := rfl

theorem value_mk (l : List (Nat × Option Node)) (v : Option Val) :
    (Node.mk l v).value = v := rfl

theorem mapFind_mapInsert_self {α : Type} (m : List (Nat × α)) (c : Nat) (a : α) :
    mapFind (mapInsert m c a) c = some a := by
  induction m with
  | nil => simp [mapInsert, mapFind]
  | cons kb rest ih =>
    obtain ⟨k, b⟩ := kb
    by_cases hck : c = k
    · simp [mapInsert, hck, mapFind]
    · by_cases hlt : c < k
      · simp [mapInsert, hck, hlt, mapFind]
      · simp [mapInsert, hck, hlt, mapFind, ih]

theorem mapFind_mapInsert_ne {α : Type} (m : List (Nat × α)) (c k : Nat) (a : α)
    (h : c ≠ k) : mapFind (mapInsert m k a) c = mapFind m c := by
  induction m with
  | nil => simp [mapInsert, mapFind, h]
  | cons kb rest ih =>
    obtain ⟨k2, b⟩ := kb
    by_cases hk2 : k = k2
    · subst hk2
      simp [mapInsert, mapFind, h]
    · by_cases hlt : k < k2
      · simp [mapInsert, hk2, hlt, mapFind, h]
      · simp [mapInsert, hk2, hlt, mapFind, ih]

theorem getN_cons (n : Node) (ty : Ty) (c : Nat) (cs : List Nat) :
    getN (some n) ty (c :: cs) =
      (match mapFind n.children c with
       | none => GetResult.notFound
       | some child => getN child ty cs) := by
  simp [getN]

theorem getN_nil_some (n : Node) (ty : Ty) :
    getN (some n) ty [] =
      (match n.value with
       | none => GetResult.notFound
       | some v => if v.ty = ty then GetResult.found v else GetResult.notFound) := by
  simp [getN]

theorem putAux_cons_some (n : Node) (c : Nat) (cs : List Nat) (v : Val) :
    putAux (some n) (c :: cs) v =
      Node.mk (mapInsert n.children c (some (putAux (childOf n c) cs v))) n.value := by
  simp [putAux]

theorem childOf_eq_none (n : Node) (c : Nat)
    (h : mapFind n.children c = none ∨ mapFind n.children c = some none) :
    childOf n c = none := by
  rcases h with h | h <;> simp [childOf, h]

theorem childOf_eq_some (n : Node) (c : Nat) (m : Node)
    (h : mapFind n.children c = some (some m)) : childOf n c = some m := by
  simp [childOf, h]

theorem removeFound_cons (n : Node) (c c2 : Nat) (cs : List Nat) :
    removeFound n c (c2 :: cs) =
      Node.mk
        (mapInsert n.children c
          (match childOf n c with
           | some m => some (removeFound m c2 cs)
           | none => none))
        n.value := by
  simp [removeFound]

theorem removeFound_nil (n : Node) (c : Nat) :
    removeFound n c [] =
      Node.mk
        (mapInsert n.children c
          (match childOf n c with
           | some m => endReplace m
           | none => none))
        n.value := by
  simp [removeFound]

/-- A successful walk determines the result of `getN`: after consuming
the whole key the lookup only inspects the node the walk reached. -/
theorem getN_walkEnd (k : List Nat) (root : Option Node) (n : Node) (ty : Ty)
    (h : walkEnd root k = some n) : getN root ty k = getN (some n) ty [] := by
  induction k generalizing root with
  | nil =>
    simp only [walkEnd] at h
    rw [h]
  | cons c cs ih =>
    cases root with
    | none => rw [walkEnd_none] at h; exact absurd h (by simp)
    | some r =>
      simp only [walkEnd] at h
      cases hf : mapFind r.children c with
      | none =>
        have hch : childOf r c = none := by simp [childOf, hf]
        rw [hch, walkEnd_none] at h
        exact absurd h (by simp)
      | some child =>
        cases child with
        | none =>
          have hch : childOf r c = none := by simp [childOf, hf]
          rw [hch, walkEnd_none] at h
          exact absurd h (by simp)
        | some m =>
          have hch : childOf r c = some m := by simp [childOf, hf]
          rw [hch] at h
          simp [getN, hf, ih (some m) h]

/-- After a put, walking the same key reaches a node carrying the new
value (its children are whatever the source's step 2 preserved). -/
theorem walkEnd_putAux (k : List Nat) (root : Option Node) (v : Val) :
    ∃ ch, walkEnd (some (putAux root k v)) k = some (Node.mk ch (some v)) := by
  induction k generalizing root with
  | nil =>
    cases root with
    | none => exact ⟨[], rfl⟩
    | some n => exact ⟨n.children, rfl⟩
  | cons c cs ih =>
    cases root with
    | none =>
      obtain ⟨ch, hch⟩ := ih none
      refine ⟨ch, ?_⟩
      have h1 : walkEnd (some (putAux none (c :: cs) v)) (c :: cs)
          = walkEnd (some (putAux none cs v)) cs := by
        simp [putAux, walkEnd, childOf, Node.children, mapFind]
      rw [h1, hch]
    | some n =>
      obtain ⟨ch, hch⟩ := ih (childOf n c)
      refine ⟨ch, ?_⟩
      have h1 : walkEnd (some (putAux (some n) (c :: cs) v)) (c :: cs)
          = walkEnd (some (putAux (childOf n c) cs v)) cs := by
        simp [putAux, walkEnd, childOf, Node.children, mapFind_mapInsert_self]
      rw [h1, hch]

/-- Looking up the key just written finds the written value. -/
theorem getN_put_self (k : List Nat) (root : Option Node) (v : Val) :
    getN (some (putAux root k v)) v.ty k = .found v := by
  obtain ⟨ch, hch⟩ := walkEnd_putAux k root v
  rw [getN_walkEnd k _ _ _ hch]
  simp [getN, Node.value]

/-- On the chain of fresh nodes `Put` synthesizes below a missing edge,
every key other than the written one reads as "not found" (the chain
holds exactly one value, at the end of the written suffix). -/
theorem getN_putAux_none_ne (k2 k : List Nat) (v : Val) (ty : Ty) (h : k ≠ k2) :
    getN (some (putAux none k2 v)) ty k = .notFound := by
  induction k2 generalizing k with
  | nil =>
    cases k with
    | nil => exact absurd rfl h
    | cons c cs => simp [putAux, getN, Node.children, mapFind]
  | cons c2 cs2 ih =>
    cases k with
    | nil => simp [putAux, getN, Node.value]
    | cons c cs =>
      by_cases hc : c = c2
      · subst hc
        have hcs : cs ≠ cs2 := fun he => h (by rw [he])
        simp [putAux, getN, Node.children, mapFind, ih cs hcs]
      · simp [putAux, getN, Node.children, mapFind, hc]

/-- The frame property of `Put` at the level of roots: a key other than
the written one reads the same in the new version as in the old one,
provided reading it in the old version does not hit the null
dereference of `Get`. -/
theorem getN_putAux_frame (k2 : List Nat) (k : List Nat) (root : Option Node)
    (v : Val) (ty : Ty) (hne : k ≠ k2) (hok : getN root ty k ≠ .crash) :
    getN (some (putAux root k2 v)) ty k = getN root ty k := by
  induction k2 generalizing k root with
  | nil =>
    cases k with
    | nil => exact absurd rfl hne
    | cons c cs =>
      cases root with
      | none => exact absurd rfl hok
      | some n =>
        rw [show putAux (some n) [] v = Node.mk n.children (some v) from rfl,
          getN_cons, getN_cons, children_mk]
  | cons c2 cs2 ih =>
    cases root with
    | none =>
      cases k with
      | nil => rw [show putAux none (c2 :: cs2) v
          = Node.mk [(c2, some (putAux none cs2 v))] none from rfl, getN_nil_some, value_mk]; rfl
      | cons c cs => exact absurd rfl hok
    | some n =>
      cases k with
      | nil => rw [putAux_cons_some, getN_nil_some, getN_nil_some, value_mk]
      | cons c cs =>
        rw [putAux_cons_some, getN_cons, getN_cons, children_mk]
        by_cases hc : c = c2
        · subst hc
          have hcs : cs ≠ cs2 := fun he => hne (by rw [he])
          rw [mapFind_mapInsert_self]
          cases hf : mapFind n.children c with
          | none =>
            rw [childOf_eq_none n c (Or.inl hf)]
            exact getN_putAux_none_ne cs2 cs v ty hcs
          | some child =>
            cases child with
            | none =>
              rw [childOf_eq_none n c (Or.inr hf)]
              cases cs with
              | nil => exact getN_putAux_none_ne cs2 [] v ty hcs
              | cons d ds =>
                rw [getN_cons, hf] at hok
                exact absurd rfl hok
            | some m =>
              rw [childOf_eq_some n c m hf]
              have hok2 : getN (some m) ty cs ≠ .crash := by
                rw [getN_cons, hf] at hok
                exact hok
              exact ih cs (some m) hcs hok2
        · rw [mapFind_mapInsert_ne n.children c c2 _ hc]

/-- The clone chain a successful `Remove` of a key with a childless
terminal value node builds: the parent clone of the terminal node keeps
a children entry for the key's last byte, holding a null reference. -/
theorem removeFound_nullEntry (cs : List Nat) (c : Nat) (r n : Node)
    (hw : walkEnd (some r) (c :: cs) = some n) (hleaf : n.children = []) :
    ∃ p, walkEnd (some (removeFound r c cs)) (initBytes c cs) = some p ∧
      mapFind p.children (lastByte c cs) = some none := by
  induction cs generalizing c r with
  | nil =>
    have hc : childOf r c = some n := by
      simpa [walkEnd] using hw
    refine ⟨Node.mk (mapInsert r.children c none) r.value, ?_, ?_⟩
    · rw [removeFound_nil, hc]
      have he : endReplace n = none := by simp [endReplace, hleaf]
      simp only [he]
      rfl
    · rw [children_mk]
      exact mapFind_mapInsert_self r.children c none
  | cons c2 cs2 ih =>
    have hw2 : walkEnd (childOf r c) (c2 :: cs2) = some n := by
      simpa [walkEnd] using hw
    cases hc : childOf r c with
    | none =>
      rw [hc, walkEnd_none] at hw2
      exact absurd hw2 (by simp)
    | some m =>
      rw [hc] at hw2
      obtain ⟨p, hp1, hp2⟩ := ih c2 m hw2
      refine ⟨p, ?_, ?_⟩
      · rw [removeFound_cons, hc]
        show walkEnd _ (c :: initBytes c2 cs2) = some p
        rw [show walkEnd
            (some (Node.mk (mapInsert r.children c (some (removeFound m c2 cs2))) r.value))
            (c :: initBytes c2 cs2)
          = walkEnd (childOf (Node.mk (mapInsert r.children c (some (removeFound m c2 cs2)))
              r.value) c) (initBytes c2 cs2) from rfl]
        rw [childOf_eq_some _ c (removeFound m c2 cs2)
          (by rw [children_mk]; exact mapFind_mapInsert_self _ _ _)]
        exact hp1
      · exact hp2

/-! ## The claims -/

/-- C1 (round-trip): for every trie version `t`, every key `k` —
including the empty key — and every value `v`, looking `k` up with the
requested type equal to the stored value's type in `Put(t, k, v)`
returns the value `v`, not "not found". -/
theorem claim1_round_trip (t : Trie) (k : List Nat) (v : Val) :
    (t.put k v).get v.ty k = .found v :=
  getN_put_self k t.root v

/-- C2 (delete correctness, failing evaluation): at the failing input
`t` the empty trie, `k` the empty key, `v = uint32 1`, the code returns
`Get(Remove(Put(t, k, v), k), k) = found 1` instead of the claimed "not
found": with an empty ancestor stack `Remove` returns `Trie(cur_node)`
where `cur_node` is still the untouched value node, so the value is not
removed. -/
theorem claim2_empty_key_remove_keeps_value :
    ((Trie.empty.put [] (Val.u32 1)).remove []).get Ty.u32 [] = .found (Val.u32 1) := rfl

/-- C3 (pruning invariant, failing evaluation): removing the only key
`"ab"` (bytes `[97, 98]`) from the version holding just that key leaves
the cloned intermediate branch node reachable from the new root: the
new root's child for byte 97 is a node with no value whose only children
entry holds a null reference — a childless, valueless clone that the
claim says must have been replaced by "absent". -/
theorem claim3_dangling_clone_reachable :
    ((Trie.empty.put [97, 98] (Val.u32 1)).remove [97, 98]).root
      = some (Node.mk [(97, some (Node.mk [(98, none)] none))] none) := rfl

/-- C4 (lookup totality, failing evaluation): `Get` does not return
"not found" when the walk's current node is absent with key bytes still
to consume — it dereferences a null pointer.  First conjunct: the empty
trie (absent root) with key `"a"`.  Second conjunct: a version produced
by `Remove` containing a null children entry, with a key walking through
that entry. -/
theorem claim4_get_crashes_on_absent_node :
    Trie.empty.get Ty.u32 [97] = .crash ∧
      ((Trie.empty.put [97, 98] (Val.u32 1)).remove [97, 98]).get Ty.u32 [97, 98, 99]
        = .crash :=
  ⟨rfl, rfl⟩

/-- C5 (isolation, counterexample): at `t` the empty trie, `k' = ""`
(empty key), `k = "a"`, the two sides of the claimed equality
`Get(Put(t, k', v), k) = Get(t, k)` differ: the left side is "not
found" while the right side is a null dereference, because `Get` never
checks the root for null. -/
theorem claim5_isolation_cex :
    (Trie.empty.put [] (Val.u32 5)).get Ty.u32 [97] = .notFound ∧
      Trie.empty.get Ty.u32 [97] = .crash :=
  ⟨rfl, rfl⟩

/-- C5 (isolation, amended): for every version `t`, every value `v` and
every pair of distinct keys `k ≠ k'`, provided looking `k` up in `t`
does not hit the null dereference of `Get`, `Get(Put(t, k', v), k) =
Get(t, k)`; the input version itself is unchanged (the operations are
pure path-copying — `Put` builds a new root and never mutates a node of
`t`). -/
theorem claim5_isolation (t : Trie) (ty : Ty) (k k2 : List Nat) (v : Val)
    (hne : k ≠ k2) (hok : t.get ty k ≠ .crash) :
    (t.put k2 v).get ty k = t.get ty k :=
  getN_putAux_frame k2 k t.root v ty hne hok

/-- C5 witness: the version holding key `"a"` is queried at `"a"`
before and after an unrelated `Put` at `"b"`; both reads agree. -/
theorem claim5_isolation_witness :
    ((Trie.empty.put [97] (Val.u32 1)).put [98] (Val.u32 2)).get Ty.u32 [97]
      = (Trie.empty.put [97] (Val.u32 1)).get Ty.u32 [97] :=
  claim5_isolation (Trie.empty.put [97] (Val.u32 1)) Ty.u32 [97] [98] (Val.u32 2)
    (by decide) (by decide)

/-- C6 (overwrite): for every version `t`, key `k` and values `v1`,
`v2`, querying `k` on `Put(Put(t, k, v1), k, v2)` yields `v2`, and the
intermediate version `Put(t, k, v1)`, still held, continues to report
`v1` for `k`. -/
theorem claim6_overwrite (t : Trie) (k : List Nat) (v1 v2 : Val) :
    ((t.put k v1).put k v2).get v2.ty k = .found v2 ∧
      (t.put k v1).get v1.ty k = .found v1 :=
  ⟨getN_put_self k (t.put k v1).root v2, getN_put_self k t.root v1⟩

/-- C7 (type mismatch behaves as absence): whenever the walk consumes
the full key and the node reached stores a value whose type differs
from the requested type, `Get` returns "not found" — not a crash and
not a wrongly-typed value. -/
theorem claim7_type_mismatch_not_found (t : Trie) (ty : Ty) (k : List Nat)
    (n : Node) (v : Val) (hw : walkEnd t.root k = some n)
    (hv : n.value = some v) (hty : v.ty ≠ ty) :
    t.get ty k = .notFound := by
  show getN t.root ty k = .notFound
  rw [getN_walkEnd k t.root n ty hw, getN_nil_some, hv]
  simp [hty]

/-- C7 witness: a `uint32` is stored under `"a"` and queried as a
string; the lookup reports "not found". -/
theorem claim7_type_mismatch_witness :
    (Trie.empty.put [97] (Val.u32 5)).get Ty.str [97] = .notFound :=
  claim7_type_mismatch_not_found (Trie.empty.put [97] (Val.u32 5)) Ty.str [97]
    (Node.mk [] (some (Val.u32 5))) (Val.u32 5) rfl rfl (by decide)

/-- C8 (no-op delete): for every version `t` and every key `k` not
present as a value in `t` (the walk cannot consume the full key, or the
node reached is not a value node), `Remove(t, k)` returns the version
unchanged — the source returns `*this` itself, so the result is the
very same version and observationally identical to `t` for every key. -/
theorem claim8_noop_remove (t : Trie) (k : List Nat) (h : t.present k = false) :
    t.remove k = t := by
  unfold Trie.present at h
  unfold Trie.remove
  cases hw : walkEnd t.root k with
  | none => simp only [hw]
  | some n =>
    simp only [hw] at h
    simp [hw, h]

/-- C8 witness: removing the absent key `"a"` from the empty trie
returns the empty trie itself. -/
theorem claim8_noop_remove_witness : Trie.empty.remove [97] = Trie.empty :=
  claim8_noop_remove Trie.empty [97] rfl

/-- C9 (implicit): `Get` on the empty trie (absent root) with the empty
key terminates and returns "not found" for every requested type: the
byte loop is skipped and the `dynamic_cast` of the null root yields
null, with no failure. -/
theorem claim9_get_empty_trie_empty_key (ty : Ty) :
    Trie.empty.get ty [] = .notFound := rfl

/-- C10 (implicit): when `Remove` deletes a present non-empty key whose
terminal value node has no children, the cloned parent node in the
returned version still has a children-map entry for the last byte of
the key, holding a null (absent) child reference — the entry itself is
not erased from the clone's mapping. -/
theorem claim10_remove_keeps_null_entry (t : Trie) (r : Node) (c : Nat)
    (cs : List Nat) (n : Node) (hroot : t.root = some r)
    (hw : walkEnd t.root (c :: cs) = some n)
    (hval : n.value.isSome = true) (hleaf : n.children = []) :
    ∃ p, walkEnd ((t.remove (c :: cs)).root) (initBytes c cs) = some p ∧
      mapFind p.children (lastByte c cs) = some none := by
  have hw2 : walkEnd (some r) (c :: cs) = some n := hroot ▸ hw
  have hrem : (t.remove (c :: cs)).root = some (removeFound r c cs) := by
    unfold Trie.remove
    rw [hroot]
    simp only [hw2, hval, if_true]
  rw [hrem]
  exact removeFound_nullEntry cs c r n (hroot ▸ hw) hleaf

/-- C10 witness: removing `"ab"` from the version holding only `"ab"`;
the parent clone (reached by the key's first byte) keeps an entry for
byte 98 holding a null reference. -/
theorem claim10_remove_keeps_null_entry_witness :
    ∃ p, walkEnd (((Trie.empty.put [97, 98] (Val.u32 1)).remove [97, 98]).root)
        (initBytes 97 [98]) = some p ∧
      mapFind p.children (lastByte 97 [98]) = some none :=
  claim10_remove_keeps_null_entry (Trie.empty.put [97, 98] (Val.u32 1))
    (Node.mk [(97, some (Node.mk [(98, some (Node.mk [] (some (Val.u32 1))))] none))] none)
    97 [98] (Node.mk [] (some (Val.u32 1))) rfl rfl rfl rfl
